import Mathlib

/-!
Verification of the decision-tree trainer and classifier in `dectree.c`.

The C code computes with IEEE `double`s.  In this development a double is
modelled by the type `Dbl`: finite values are exact rationals (all the
numbers the program manipulates are quotients of machine integers, so no
rounding question arises for the properties below except the comment at
`THRESHOLD`), plus the two infinities and a NaN.  The arithmetic and the
comparisons implement the IEEE rules on those values: NaN is absorbing for
arithmetic, and every ordered comparison or equality involving NaN is
false.  In particular the C expression `x != NAN` is `dne x Dbl.nan`,
which is true for every `x`, including NaN itself.

All integer data (pixel intensities, labels, indices, counts) is modelled
with `Nat`/`Int`; no arithmetic in the source ever approaches machine
overflow for datasets that fit in memory, and none of the claims concern
overflow.
-/

namespace DecTree

/-- Model of a C `double` as used by `dectree.c`: a finite value (an exact
rational), one of the infinities, or NaN. -/
inductive Dbl where
  | nan : Dbl
  | inf : Dbl
  | neginf : Dbl
  | fin : ℚ → Dbl
deriving DecidableEq

/-- IEEE negation on `Dbl`. -/
def dneg : Dbl → Dbl
  | .nan => .nan
  | .inf => .neginf
  | .neginf => .inf
  | .fin q => .fin (-q)

/-- IEEE addition: NaN absorbs, opposite infinities give NaN. -/
def dadd : Dbl → Dbl → Dbl
  | .nan, _ => .nan
  | _, .nan => .nan
  | .inf, .neginf => .nan
  | .neginf, .inf => .nan
  | .inf, _ => .inf
  | _, .inf => .inf
  | .neginf, _ => .neginf
  | _, .neginf => .neginf
  | .fin a, .fin b => .fin (a + b)

/-- IEEE subtraction, as addition of the negation. -/
def dsub (x y : Dbl) : Dbl := dadd x (dneg y)

/-- IEEE multiplication: NaN absorbs, infinity times zero is NaN. -/
def dmul : Dbl → Dbl → Dbl
  | .nan, _ => .nan
  | _, .nan => .nan
  | .inf, .inf => .inf
  | .inf, .neginf => .neginf
  | .neginf, .inf => .neginf
  | .neginf, .neginf => .inf
  | .inf, .fin q => if q = 0 then .nan else if 0 < q then .inf else .neginf
  | .fin q, .inf => if q = 0 then .nan else if 0 < q then .inf else .neginf
  | .neginf, .fin q => if q = 0 then .nan else if 0 < q then .neginf else .inf
  | .fin q, .neginf => if q = 0 then .nan else if 0 < q then .neginf else .inf
  | .fin a, .fin b => .fin (a * b)

/-- IEEE division: NaN absorbs, `0/0` and `inf/inf` are NaN, a nonzero
finite value over zero is a (signed) infinity, a finite value over an
infinity is zero.  (The model has a single zero; the sign of a zero result
is never observed by this program.) -/
def ddiv : Dbl → Dbl → Dbl
  | .nan, _ => .nan
  | _, .nan => .nan
  | .inf, .inf => .nan
  | .inf, .neginf => .nan
  | .neginf, .inf => .nan
  | .neginf, .neginf => .nan
  | .inf, .fin q => if 0 ≤ q then .inf else .neginf
  | .neginf, .fin q => if 0 ≤ q then .neginf else .inf
  | .fin _, .inf => .fin 0
  | .fin _, .neginf => .fin 0
  | .fin a, .fin b =>
      if b = 0 then (if a = 0 then .nan else if 0 < a then .inf else .neginf)
      else .fin (a / b)

/-- IEEE `<`: false whenever an operand is NaN. -/
def dlt : Dbl → Dbl → Bool
  | .nan, _ => false
  | _, .nan => false
  | .inf, _ => false
  | .neginf, .neginf => false
  | .neginf, _ => true
  | .fin _, .inf => true
  | .fin _, .neginf => false
  | .fin a, .fin b => decide (a < b)

/-- IEEE `==`: false whenever an operand is NaN (so `NaN == NaN` is false). -/
def deq : Dbl → Dbl → Bool
  | .nan, _ => false
  | _, .nan => false
  | .inf, .inf => true
  | .neginf, .neginf => true
  | .fin a, .fin b => decide (a = b)
  | _, _ => false

/-- IEEE `!=`: the negation of `==`; true whenever an operand is NaN.
This is the C expression `x != NAN` from `find_best_split`. -/
def dne (x y : Dbl) : Bool := !(deq x y)

/-- IEEE `>=`: false whenever an operand is NaN. -/
def dge : Dbl → Dbl → Bool
  | .nan, _ => false
  | _, .nan => false
  | x, y => deq x y || dlt y x

/-- The `Image` struct: x/y resolution and the pixel intensity array
(modelled as a total map from pixel index to intensity). -/
structure Image where
  sx : Nat
  sy : Nat
  data : Nat → Nat

/-- The `Dataset` struct: number of items, the image array and the label
array (arrays modelled as total maps from index). -/
structure Dataset where
  num_items : Nat
  images : Nat → Image
  labels : Nat → Nat

/-- The branch test used throughout training: intensity at `pixel` is
below 128 (`data->images[i].data[pixel] < 128` in the source). -/
def leftPred (data : Dataset) (pixel : Nat) (i : Nat) : Bool :=
  decide ((data.images i).data pixel < 128)

/-- The sub-list of `indices` whose intensity at `pixel` is `< 128`
(group A of `gini_impurity`, the left output of `split_data`). -/
def groupA (data : Dataset) (indices : List Nat) (pixel : Nat) : List Nat :=
  indices.filter (fun i => leftPred data pixel i)

/-- The sub-list of `indices` whose intensity at `pixel` is `>= 128`
(group B of `gini_impurity`, the right output of `split_data`). -/
def groupB (data : Dataset) (indices : List Nat) (pixel : Nat) : List Nat :=
  indices.filter (fun i => !leftPred data pixel i)

/-- How many members of the list carry label `k`.  This is the content of
the `a_freq`/`b_freq`/`frequencies` counter arrays of the source after
their counting loops (for the in-range slots `k < 10`; an out-of-range
label would be an out-of-bounds write in C, which is why the theorems
about label statistics assume labels below 10). -/
def labelCount (data : Dataset) (l : List Nat) (k : Nat) : Nat :=
  (l.filter (fun i => decide (data.labels i = k))).length

/-- One term `a_i * (1 - a_i)` of the Gini accumulation loop of
`gini_impurity`, with `a_i = freqk / total` computed in `double`
arithmetic (`0/0` yields NaN, which then absorbs). -/
def giniTerm (freqk total : Nat) : Dbl :=
  dmul (ddiv (.fin (freqk : ℚ)) (.fin (total : ℚ)))
    (dsub (.fin 1) (ddiv (.fin (freqk : ℚ)) (.fin (total : ℚ))))

/-- The accumulation loop `for i in 0..9: g += a_i * (1 - a_i)` of
`gini_impurity` for one group. -/
def giniSum (f : Nat → Nat) (total : Nat) : Dbl :=
  (List.range 10).foldl (fun acc k => dadd acc (giniTerm (f k) total)) (.fin 0)

/-- `gini_impurity` from `dectree.c`: partition the subset at `pixel` by
the `< 128` test, accumulate each group's Gini sum in double arithmetic,
and return the size-weighted average `(a_gini*a_count + b_gini*b_count)/M`.
The source interleaves the two accumulations in one loop over the ten
labels; they are independent, so they appear here as two `giniSum`s. -/
def gini_impurity (data : Dataset) (indices : List Nat) (pixel : Nat) : Dbl :=
  ddiv
    (dadd
      (dmul (giniSum (labelCount data (groupA data indices pixel)) (groupA data indices pixel).length)
        (.fin ((groupA data indices pixel).length : ℚ)))
      (dmul (giniSum (labelCount data (groupB data indices pixel)) (groupB data indices pixel).length)
        (.fin ((groupB data indices pixel).length : ℚ))))
    (.fin ((indices.length : ℚ)))

/-- The per-group impurity written the way the specification states it:
`1 - sum over the 10 labels of (count/size)^2`. -/
def gSpec (data : Dataset) (l : List Nat) : ℚ :=
  1 - ∑ k ∈ Finset.range 10, ((labelCount data l k : ℚ) / (l.length : ℚ)) ^ 2

/-- The Impurity Evaluator as the specification words it (for the
refinement claim C5): partition at the pixel, per-group impurity
`1 - sum of squared label proportions`, size-weighted average; the
not-a-number sentinel when either group is empty. -/
def giniSpec (data : Dataset) (indices : List Nat) (pixel : Nat) : Dbl :=
  if (groupA data indices pixel).length = 0 ∨ (groupB data indices pixel).length = 0 then .nan
  else .fin ((gSpec data (groupA data indices pixel) * ((groupA data indices pixel).length : ℚ)
      + gSpec data (groupB data indices pixel) * ((groupB data indices pixel).length : ℚ))
      / (indices.length : ℚ))

/-- One step of the selection loop of `get_most_frequent`.  The state is
the pair `(*label, *freq)`, initialised to `(-1, -1)`; `f k` is
`frequencies[k]`. -/
def gmfStep (f : Nat → Nat) (st : Int × Int) (k : Nat) : Int × Int :=
  if (f k : Int) > st.2 then ((k : Int), (f k : Int))
  else if (f k : Int) = st.2 then
    (if (k : Int) < st.1 then ((k : Int), (f k : Int)) else st)
  else st

/-- `get_most_frequent` from `dectree.c`: count the labels of the subset,
then scan slots 0..9 keeping the best `(label, freq)` pair.  The result
pair is `(*label, *freq)`. -/
def get_most_frequent (data : Dataset) (indices : List Nat) : Int × Int :=
  (List.range 10).foldl (gmfStep (labelCount data indices)) (-1, -1)

/-- One step of the pixel scan of `find_best_split`.  The state is the
pair `(best_split, min_impurity)`; `best_split` is declared without an
initialiser in the source, modelled as `none` until first assigned (the
`none` arm of the inner match is the comparison `i < best_split` against
the uninitialised variable, unreachable because `deq` against the initial
`inf` is false).  `g i` is `gini_impurity(data, M, indices, i)`. -/
def fbsStep (g : Nat → Dbl) (st : Option Nat × Dbl) (i : Nat) : Option Nat × Dbl :=
  if dlt (g i) st.2 && dne (g i) .nan then (some i, g i)
  else if deq (g i) st.2 && dne (g i) .nan then
    match st.1 with
    | some b => if i < b then (some i, g i) else st
    | none => st
  else st

/-- `find_best_split` from `dectree.c`: scan pixels 0..783 with
`min_impurity` starting at `INFINITY`, updating through the two guarded
branches of the source.  Returns the final `best_split`; `none` means the
variable was never assigned, in which case the C function returns an
uninitialised value (undefined behavior). -/
def find_best_split (data : Dataset) (indices : List Nat) : Option Nat :=
  ((List.range 784).foldl (fbsStep (gini_impurity data indices)) (none, .inf)).1

/-- `split_data` from `dectree.c`: the indices with intensity `< 128` at
the pixel, in input order, paired with the remaining indices, in input
order. -/
def split_data (data : Dataset) (indices : List Nat) (pixel : Nat) : List Nat × List Nat :=
  (groupA data indices pixel, groupB data indices pixel)

/-- The `DTNode` struct: pixel, classification, and the two child
pointers (`none` models a null pointer). -/
inductive DTNode where
  | mk (pixel : Int) (classification : Int) (left : Option DTNode) (right : Option DTNode)

/-- The `pixel` field. -/
def DTNode.pixel : DTNode → Int
  | .mk p _ _ _ => p

/-- The `classification` field. -/
def DTNode.classification : DTNode → Int
  | .mk _ c _ _ => c

/-- The `left` field. -/
def DTNode.left : DTNode → Option DTNode
  | .mk _ _ l _ => l

/-- The `right` field. -/
def DTNode.right : DTNode → Option DTNode
  | .mk _ _ _ r => r

/-- Number of nodes of a tree (used as an induction measure). -/
def DTNode.size : DTNode → Nat
  | .mk _ _ l r =>
    1 + (match l with | some x => x.size | none => 0)
      + (match r with | some x => x.size | none => 0)

/-- `THRESHOLD_RATIO` from `dectree.h` (0.95).  The exact rational stands
in for the double literal; for every count/size pair the program can form,
the double comparison `(double)freq / (double)M >= 0.95` agrees with the
exact rational comparison, because `freq` and `M` are small integers. -/
def THRESHOLD : ℚ := 95 / 100

/-- The leaf test of `build_subtree`:
`((double)*freq / (double)M) >= THRESHOLD_RATIO`, in double
arithmetic (so it is false when `M = 0`, since `0/0` is NaN). -/
def leafTestB (data : Dataset) (indices : List Nat) : Bool :=
  dge (ddiv (.fin (((get_most_frequent data indices).2 : ℚ)))
      (.fin ((indices.length : ℚ))))
    (.fin THRESHOLD)

/-- `build_subtree` from `dectree.c`, with an explicit recursion budget.
If the leaf test passes, emit a leaf (`pixel = -1`, both children null);
otherwise take the pixel from `find_best_split`, split, and recurse on
both parts.  `none` models the executions the C source does not complete
normally: exhausted budget stands for non-termination, and the `none`
branch of the match on `find_best_split` is the source reading its
uninitialised `best_split` (undefined behavior).  Every terminating,
well-defined execution of the source is reproduced with any budget
exceeding the subset size, because each defined split strictly shrinks
the subset (proved below). -/
def build_subtree (data : Dataset) : Nat → List Nat → Option DTNode
  | 0, _ => none
  | fuel + 1, indices =>
    if leafTestB data indices then
      some (.mk (-1) (get_most_frequent data indices).1 none none)
    else
      match find_best_split data indices with
      | none => none
      | some p =>
        match build_subtree data fuel (split_data data indices p).1,
            build_subtree data fuel (split_data data indices p).2 with
        | some l, some r => some (.mk (p : Int) (-1) (some l) (some r))
        | _, _ => none

/-- `build_dec_tree` from `dectree.c`: build from the full index range.
The budget `num_items + 1` covers every terminating execution (each
defined split strictly shrinks the subset, so the recursion depth of a
terminating run is at most `num_items`). -/
def build_dec_tree (data : Dataset) : Option DTNode :=
  build_subtree data (data.num_items + 1) (List.range data.num_items)

/-- `dec_tree_classify` from `dectree.c`: at a node with
`classification != -1` return the classification, otherwise descend left
when the image's intensity at the node's pixel is exactly 0 and right
otherwise.  `none` models following a null child pointer (undefined
behavior in the source).  A negative `pixel` would also be an invalid
access in C; it is never dereferenced on the trees the builder produces,
where split nodes carry `0 <= pixel < 784`. -/
def dec_tree_classify : DTNode → Image → Option Int
  | .mk p c l r, img =>
    if c ≠ -1 then some c
    else if img.data p.toNat = 0 then
      match l with
      | some lt => dec_tree_classify lt img
      | none => none
    else
      match r with
      | some rt => dec_tree_classify rt img
      | none => none

/-- The shape invariant of the nodes `build_subtree` produces: a leaf has
`pixel = -1`, a classification in `[0, 9]` and two null children; a split
node has `classification = -1`, a pixel in `[0, 783]` and two non-null
children, themselves well formed. -/
def wellFormed : DTNode → Bool
  | .mk p c none none => decide (p = -1) && decide (0 ≤ c) && decide (c < 10)
  | .mk p c (some l) (some r) =>
      decide (c = -1) && decide (0 ≤ p) && decide (p < 784) && wellFormed l && wellFormed r
  | _ => false

/-- At every node of the tree, the test `classification != -1` (the test
`dec_tree_classify` and `free_dec_tree` use to recognise a leaf) agrees
with the node having no children. -/
def classifMatchesChildren : DTNode → Bool
  | .mk _ c l r =>
    (decide (c ≠ -1) == (l.isNone && r.isNone))
      && (match l with | some x => classifMatchesChildren x | none => true)
      && (match r with | some x => classifMatchesChildren x | none => true)

/-- The maximal label frequency of a subset, recomputed directly: the
maximum over the ten label slots of `labelCount`. -/
def maxLabelFreq (data : Dataset) (indices : List Nat) : Nat :=
  (List.range 10).foldl (fun m k => max m (labelCount data indices k)) 0

/-- Every leaf of the tree was built from a subset whose recomputed
majority ratio is at least `THRESHOLD`, or from a subset of size 1.  The
subset attached to each subtree is recovered by replaying `split_data`
along the tree structure, starting from the given subset. -/
def leavesRatioOK (data : Dataset) : DTNode → List Nat → Prop
  | .mk _ _ none none, idx =>
      THRESHOLD ≤ (maxLabelFreq data idx : ℚ) / (idx.length : ℚ) ∨ idx.length = 1
  | .mk p _ (some l) (some r), idx =>
      leavesRatioOK data l (split_data data idx p.toNat).1 ∧
        leavesRatioOK data r (split_data data idx p.toNat).2
  | _, _ => False

/-- The classification walk exactly as the specification words it
(section 4.6): at a leaf — a node with no children — stop and return the
node; at a node with two children inspect the image's intensity at the
node's pixel and descend left when it is exactly 0, right otherwise.
Written from the specification text for the refinement claim C9. -/
def specWalk : DTNode → Image → Option DTNode
  | .mk p c none none, _ => some (.mk p c none none)
  | .mk p _ (some l) (some r), img =>
      if img.data p.toNat = 0 then specWalk l img else specWalk r img
  | _, _ => none

/-- The case analysis claim C1 states for one call of `build_subtree`
that returns a node: either the majority ratio reached the threshold and
the node is a leaf carrying the majority label, or it did not and the
node is a split on the `find_best_split` pixel whose children are built
recursively on the two `split_data` parts. -/
def BuildDichotomy (data : Dataset) (fuel : Nat) (indices : List Nat) (t : DTNode) : Prop :=
  (THRESHOLD ≤ ((get_most_frequent data indices).2 : ℚ) / (indices.length : ℚ) ∧
      t = .mk (-1) (get_most_frequent data indices).1 none none)
  ∨ (¬ THRESHOLD ≤ ((get_most_frequent data indices).2 : ℚ) / (indices.length : ℚ) ∧
      ∃ p l r, find_best_split data indices = some p ∧
        build_subtree data fuel (split_data data indices p).1 = some l ∧
        build_subtree data fuel (split_data data indices p).2 = some r ∧
        t = .mk (p : Int) (-1) (some l) (some r))

/-! Concrete datasets used by the witnesses and counterexamples. -/

/-- A dataset of two identical images (all intensities 0) both labelled 3. -/
def dPure : Dataset where
  num_items := 2
  images := fun _ => { sx := 28, sy := 28, data := fun _ => 0 }
  labels := fun _ => 3

/-- A dataset of four images: items 0 and 1 are all-zero with label 0,
items 2 and 3 have intensity 255 at pixel 0 (0 elsewhere) with label 1. -/
def dSplit : Dataset where
  num_items := 4
  images := fun i =>
    if i < 2 then { sx := 28, sy := 28, data := fun _ => 0 }
    else { sx := 28, sy := 28, data := fun p => if p = 0 then 255 else 0 }
  labels := fun i => if i < 2 then 0 else 1

/-- A dataset of two identical all-zero images with different labels: no
pixel separates them, so every pixel's impurity is NaN. -/
def dTwin : Dataset where
  num_items := 2
  images := fun _ => { sx := 28, sy := 28, data := fun _ => 0 }
  labels := fun i => if i = 0 then 0 else 1

/-- An all-zero test image. -/
def imgZero : Image := { sx := 28, sy := 28, data := fun _ => 0 }

/-- A two-leaf tree splitting on pixel 0 (left leaf label 0, right leaf
label 1), as the builder produces on `dSplit`. -/
def tDemo : DTNode :=
  .mk 0 (-1) (some (.mk (-1) 0 none none)) (some (.mk (-1) 1 none none))

/-! Basic facts about the double model. -/

theorem dadd_nan_left (y : Dbl) : dadd .nan y = .nan := by cases y <;> rfl

theorem dadd_nan_right (x : Dbl) : dadd x .nan = .nan := by cases x <;> rfl

theorem dmul_nan_left (y : Dbl) : dmul .nan y = .nan := by cases y <;> rfl

theorem ddiv_nan_left (y : Dbl) : ddiv .nan y = .nan := by cases y <;> rfl

theorem dne_nan_right (x : Dbl) : dne x .nan = true := by cases x <;> rfl

theorem dlt_nan_left (y : Dbl) : dlt .nan y = false := by cases y <;> rfl

theorem deq_nan_left (y : Dbl) : deq .nan y = false := by cases y <;> rfl

theorem dge_nan_left (y : Dbl) : dge .nan y = false := by cases y <;> rfl

/-! Counting lemmas. -/

theorem labelCount_nil (data : Dataset) (k : Nat) : labelCount data [] k = 0 := rfl

theorem labelCount_le_length (data : Dataset) (l : List Nat) (k : Nat) :
    labelCount data l k ≤ l.length :=
  List.length_filter_le _ l

theorem labelCount_cons (data : Dataset) (i : Nat) (t : List Nat) (k : Nat) :
    labelCount data (i :: t) k =
      (if data.labels i = k then 1 else 0) + labelCount data t k := by
  by_cases h : data.labels i = k
  · simp [labelCount, List.filter_cons, h]
    omega
  · simp [labelCount, List.filter_cons, h]

theorem labelCount_sum_le (data : Dataset) (l : List Nat) :
    ∑ k ∈ Finset.range 10, labelCount data l k ≤ l.length := by
  induction l with
  | nil => simp [labelCount_nil]
  | cons i t ih =>
    have hstep : ∑ k ∈ Finset.range 10, labelCount data (i :: t) k =
        (∑ k ∈ Finset.range 10, if data.labels i = k then 1 else 0) +
          ∑ k ∈ Finset.range 10, labelCount data t k := by
      rw [← Finset.sum_add_distrib]
      exact Finset.sum_congr rfl fun k _ => labelCount_cons data i t k
    have hone : (∑ k ∈ Finset.range 10, if data.labels i = k then 1 else 0) ≤ 1 := by
      rw [Finset.sum_ite_eq]
      split <;> omega
    calc ∑ k ∈ Finset.range 10, labelCount data (i :: t) k
        ≤ 1 + ∑ k ∈ Finset.range 10, labelCount data t k := by rw [hstep]; omega
      _ ≤ 1 + t.length := by omega
      _ = (i :: t).length := by simp; omega

theorem labelCount_sum_eq (data : Dataset) (l : List Nat)
    (hval : ∀ i ∈ l, data.labels i < 10) :
    ∑ k ∈ Finset.range 10, labelCount data l k = l.length := by
  induction l with
  | nil => simp [labelCount_nil]
  | cons i t ih =>
    have hstep : ∑ k ∈ Finset.range 10, labelCount data (i :: t) k =
        (∑ k ∈ Finset.range 10, if data.labels i = k then 1 else 0) +
          ∑ k ∈ Finset.range 10, labelCount data t k := by
      rw [← Finset.sum_add_distrib]
      exact Finset.sum_congr rfl fun k _ => labelCount_cons data i t k
    have hone : (∑ k ∈ Finset.range 10, if data.labels i = k then 1 else 0) = 1 := by
      rw [Finset.sum_ite_eq]
      rw [if_pos (Finset.mem_range.mpr (hval i (by simp)))]
    rw [hstep, hone, ih (fun j hj => hval j (by simp [hj])), List.length_cons]
    omega

theorem groupA_groupB_length (data : Dataset) (indices : List Nat) (pixel : Nat) :
    (groupA data indices pixel).length + (groupB data indices pixel).length
      = indices.length := by
  induction indices with
  | nil => rfl
  | cons i t ih =>
    by_cases h : leftPred data pixel i
    · simp [groupA, groupB, List.filter_cons, h] at ih ⊢
      omega
    · simp [groupA, groupB, List.filter_cons, h] at ih ⊢
      omega

theorem mem_groupA (data : Dataset) (indices : List Nat) (pixel : Nat) (i : Nat) :
    i ∈ groupA data indices pixel ↔ i ∈ indices ∧ leftPred data pixel i = true := by
  simp [groupA, List.mem_filter]

theorem mem_groupB (data : Dataset) (indices : List Nat) (pixel : Nat) (i : Nat) :
    i ∈ groupB data indices pixel ↔ i ∈ indices ∧ leftPred data pixel i = false := by
  simp [groupB, List.mem_filter]

/-! Evaluation of `gini_impurity`: NaN exactly when a group is empty,
otherwise the exact rational value. -/

theorem giniTerm_zero_zero : giniTerm 0 0 = .nan := by decide

theorem foldl_dadd_nan (g : Nat → Dbl) (l : List Nat) :
    List.foldl (fun acc k => dadd acc (g k)) Dbl.nan l = Dbl.nan := by
  induction l with
  | nil => rfl
  | cons x xs ih =>
    simp only [List.foldl_cons, dadd_nan_left]
    exact ih

theorem giniSum_total_zero (f : Nat → Nat) (hf : ∀ k, f k = 0) : giniSum f 0 = .nan := by
  have hterm : ∀ k, giniTerm (f k) 0 = .nan := by
    intro k
    rw [hf k]
    exact giniTerm_zero_zero
  have h10 : List.range 10 = 0 :: [1, 2, 3, 4, 5, 6, 7, 8, 9] := by decide
  unfold giniSum
  rw [h10]
  simp only [List.foldl_cons, List.foldl_nil, hterm, dadd_nan_right, dadd_nan_left]

theorem giniTerm_fin (fk A : Nat) (hA : A ≠ 0) :
    giniTerm fk A = .fin ((fk : ℚ) / A * (1 - (fk : ℚ) / A)) := by
  have hq : ((A : ℚ)) ≠ 0 := Nat.cast_ne_zero.mpr hA
  unfold giniTerm
  simp only [ddiv, if_neg hq, dsub, dneg, dadd, dmul]
  congr 1
  ring

theorem giniSum_fin (f : Nat → Nat) (A : Nat) (hA : A ≠ 0) :
    giniSum f A = .fin (∑ k ∈ Finset.range 10, (f k : ℚ) / A * (1 - (f k : ℚ) / A)) := by
  have key : ∀ (n : Nat) (c : ℚ),
      (List.range n).foldl (fun acc k => dadd acc (giniTerm (f k) A)) (.fin c)
        = .fin (c + ∑ k ∈ Finset.range n, (f k : ℚ) / A * (1 - (f k : ℚ) / A)) := by
    intro n
    induction n with
    | zero => intro c; simp
    | succ m ih =>
      intro c
      rw [List.range_succ, List.foldl_append, ih]
      simp only [List.foldl_cons, List.foldl_nil, giniTerm_fin _ _ hA, dadd,
        Finset.sum_range_succ]
      congr 1
      ring
  unfold giniSum
  rw [key 10 0, zero_add]

theorem gini_impurity_eq_nan (data : Dataset) (indices : List Nat) (pixel : Nat)
    (h : (groupA data indices pixel).length = 0 ∨ (groupB data indices pixel).length = 0) :
    gini_impurity data indices pixel = .nan := by
  unfold gini_impurity
  rcases h with h | h
  · have hA : groupA data indices pixel = [] := List.length_eq_zero.mp h
    have hz : ∀ k, labelCount data (groupA data indices pixel) k = 0 := by
      intro k; rw [hA]; rfl
    rw [h, giniSum_total_zero _ hz, dmul_nan_left, dadd_nan_left, ddiv_nan_left]
  · have hB : groupB data indices pixel = [] := List.length_eq_zero.mp h
    have hz : ∀ k, labelCount data (groupB data indices pixel) k = 0 := by
      intro k; rw [hB]; rfl
    rw [h, giniSum_total_zero _ hz, dmul_nan_left, dadd_nan_right, ddiv_nan_left]

theorem gini_impurity_eq_fin (data : Dataset) (indices : List Nat) (pixel : Nat)
    (hA : (groupA data indices pixel).length ≠ 0)
    (hB : (groupB data indices pixel).length ≠ 0) :
    gini_impurity data indices pixel =
      .fin (((∑ k ∈ Finset.range 10,
            (labelCount data (groupA data indices pixel) k : ℚ) / (groupA data indices pixel).length
              * (1 - (labelCount data (groupA data indices pixel) k : ℚ) / (groupA data indices pixel).length))
          * ((groupA data indices pixel).length : ℚ)
        + (∑ k ∈ Finset.range 10,
            (labelCount data (groupB data indices pixel) k : ℚ) / (groupB data indices pixel).length
              * (1 - (labelCount data (groupB data indices pixel) k : ℚ) / (groupB data indices pixel).length))
          * ((groupB data indices pixel).length : ℚ))
        / (indices.length : ℚ)) := by
  have hM : indices.length ≠ 0 := by
    have := groupA_groupB_length data indices pixel
    omega
  have hMq : ((indices.length : ℚ)) ≠ 0 := Nat.cast_ne_zero.mpr hM
  unfold gini_impurity
  rw [giniSum_fin _ _ hA, giniSum_fin _ _ hB]
  simp only [dmul, dadd, ddiv, if_neg hMq]

theorem gini_impurity_nan_or_fin (data : Dataset) (indices : List Nat) (pixel : Nat) :
    gini_impurity data indices pixel = .nan ∨
      ∃ q : ℚ, gini_impurity data indices pixel = .fin q := by
  by_cases h : (groupA data indices pixel).length = 0 ∨ (groupB data indices pixel).length = 0
  · exact Or.inl (gini_impurity_eq_nan data indices pixel h)
  · push_neg at h
    exact Or.inr ⟨_, gini_impurity_eq_fin data indices pixel h.1 h.2⟩

theorem gini_impurity_fin_groups (data : Dataset) (indices : List Nat) (pixel : Nat)
    (q : ℚ) (h : gini_impurity data indices pixel = .fin q) :
    (groupA data indices pixel).length ≠ 0 ∧ (groupB data indices pixel).length ≠ 0 := by
  by_contra hc
  have hor : (groupA data indices pixel).length = 0 ∨ (groupB data indices pixel).length = 0 := by
    by_contra hc2
    push_neg at hc2
    exact hc ⟨hc2.1, hc2.2⟩
  rw [gini_impurity_eq_nan data indices pixel hor] at h
  cases h

/-- Bounds on one group's accumulated Gini sum: in `[0, 1]` whenever the
group is non-empty. -/
theorem giniSumQ_bounds (data : Dataset) (l : List Nat) (hl : l.length ≠ 0) :
    0 ≤ (∑ k ∈ Finset.range 10,
        (labelCount data l k : ℚ) / l.length * (1 - (labelCount data l k : ℚ) / l.length)) ∧
      (∑ k ∈ Finset.range 10,
        (labelCount data l k : ℚ) / l.length * (1 - (labelCount data l k : ℚ) / l.length)) ≤ 1 := by
  have hlq : (0 : ℚ) < l.length := by
    exact_mod_cast Nat.pos_of_ne_zero hl
  have hp0 : ∀ k, (0 : ℚ) ≤ (labelCount data l k : ℚ) / l.length := fun k =>
    div_nonneg (Nat.cast_nonneg _) (le_of_lt hlq)
  have hp1 : ∀ k, (labelCount data l k : ℚ) / l.length ≤ 1 := by
    intro k
    rw [div_le_one hlq]
    exact_mod_cast labelCount_le_length data l k
  constructor
  · apply Finset.sum_nonneg
    intro k _
    exact mul_nonneg (hp0 k) (by linarith [hp1 k])
  · calc (∑ k ∈ Finset.range 10,
          (labelCount data l k : ℚ) / l.length * (1 - (labelCount data l k : ℚ) / l.length))
        ≤ ∑ k ∈ Finset.range 10, (labelCount data l k : ℚ) / l.length := by
          apply Finset.sum_le_sum
          intro k _
          nlinarith [hp0 k, hp1 k]
      _ = (∑ k ∈ Finset.range 10, (labelCount data l k : ℚ)) / l.length := by
          rw [Finset.sum_div]
      _ ≤ (l.length : ℚ) / l.length := by
          gcongr
          exact_mod_cast labelCount_sum_le data l
      _ = 1 := div_self (ne_of_gt hlq)

/-- On a non-empty group with in-range labels, the accumulated sum of
`p * (1 - p)` equals the specification's `1 - sum of p^2`, because the
proportions sum to 1. -/
theorem giniSumQ_eq_gSpec (data : Dataset) (l : List Nat) (hl : l.length ≠ 0)
    (hval : ∀ i ∈ l, data.labels i < 10) :
    (∑ k ∈ Finset.range 10,
        (labelCount data l k : ℚ) / l.length * (1 - (labelCount data l k : ℚ) / l.length))
      = gSpec data l := by
  have hlq : ((l.length : ℚ)) ≠ 0 := Nat.cast_ne_zero.mpr hl
  have hsum1 : (∑ k ∈ Finset.range 10, (labelCount data l k : ℚ) / l.length) = 1 := by
    rw [← Finset.sum_div]
    rw [show (∑ k ∈ Finset.range 10, (labelCount data l k : ℚ))
        = ((l.length : ℚ)) by exact_mod_cast labelCount_sum_eq data l hval]
    exact div_self hlq
  unfold gSpec
  have hsplit : (∑ k ∈ Finset.range 10,
      (labelCount data l k : ℚ) / l.length * (1 - (labelCount data l k : ℚ) / l.length))
      = (∑ k ∈ Finset.range 10, (labelCount data l k : ℚ) / l.length)
        - ∑ k ∈ Finset.range 10, ((labelCount data l k : ℚ) / l.length) ^ 2 := by
    rw [← Finset.sum_sub_distrib]
    exact Finset.sum_congr rfl fun k _ => by ring
  rw [hsplit, hsum1]

/-! The selection loop of `get_most_frequent`. -/

theorem gmf_fold_spec (f : Nat → Nat) :
    ∀ n, 0 < n → ∃ L F : Nat,
      (List.range n).foldl (gmfStep f) (-1, -1) = ((L : Int), (F : Int)) ∧
      L < n ∧ f L = F ∧ (∀ k, k < n → f k ≤ F) ∧ (∀ k, k < L → f k < F) := by
  intro n
  induction n with
  | zero => intro h; exact absurd h (by omega)
  | succ m ih =>
    intro _
    rcases Nat.eq_zero_or_pos m with hm | hm
    · subst hm
      refine ⟨0, f 0, ?_, by omega, rfl, ?_, ?_⟩
      · have h1 : List.range 1 = [0] := rfl
        rw [h1]
        simp only [List.foldl_cons, List.foldl_nil]
        unfold gmfStep
        rw [if_pos (by omega : ((f 0 : Int)) > (((-1 : Int), (-1 : Int)) : Int × Int).2)]
      · intro k hk
        have : k = 0 := by omega
        subst this
        exact le_rfl
      · intro k hk
        exact absurd hk (by omega)
    · obtain ⟨L, F, heq, hL, hfL, hmax, hmin⟩ := ih hm
      rw [List.range_succ, List.foldl_append, heq]
      simp only [List.foldl_cons, List.foldl_nil]
      by_cases h1 : F < f m
      · refine ⟨m, f m, ?_, by omega, rfl, ?_, ?_⟩
        · unfold gmfStep
          rw [if_pos (by simp; omega : ((f m : Int)) > (((L : Int), (F : Int)) : Int × Int).2)]
        · intro k hk
          rcases Nat.lt_succ_iff_lt_or_eq.mp hk with hk2 | hk2
          · exact le_of_lt (lt_of_le_of_lt (hmax k hk2) h1)
          · subst hk2; exact le_rfl
        · intro k hk
          exact lt_of_le_of_lt (hmax k (by omega)) h1
      · by_cases h2 : f m = F
        · refine ⟨L, F, ?_, by omega, hfL, ?_, hmin⟩
          · unfold gmfStep
            rw [if_neg (by simp; omega : ¬ ((f m : Int)) > (((L : Int), (F : Int)) : Int × Int).2)]
            rw [if_pos (by simp; omega : ((f m : Int)) = (((L : Int), (F : Int)) : Int × Int).2)]
            rw [if_neg (by simp; omega : ¬ ((m : Int)) < (((L : Int), (F : Int)) : Int × Int).1)]
          · intro k hk
            rcases Nat.lt_succ_iff_lt_or_eq.mp hk with hk2 | hk2
            · exact hmax k hk2
            · subst hk2; omega
        · have h3 : f m < F := by omega
          refine ⟨L, F, ?_, by omega, hfL, ?_, hmin⟩
          · unfold gmfStep
            rw [if_neg (by simp; omega : ¬ ((f m : Int)) > (((L : Int), (F : Int)) : Int × Int).2)]
            rw [if_neg (by simp; omega : ¬ ((f m : Int)) = (((L : Int), (F : Int)) : Int × Int).2)]
          · intro k hk
            rcases Nat.lt_succ_iff_lt_or_eq.mp hk with hk2 | hk2
            · exact hmax k hk2
            · subst hk2; omega

theorem gmf_spec (data : Dataset) (indices : List Nat) :
    ∃ L F : Nat, get_most_frequent data indices = ((L : Int), (F : Int)) ∧ L < 10 ∧
      labelCount data indices L = F ∧ (∀ k, k < 10 → labelCount data indices k ≤ F) ∧
      (∀ k, k < L → labelCount data indices k < F) :=
  gmf_fold_spec (labelCount data indices) 10 (by omega)

/-- The fold computing `maxLabelFreq` is bounded by any common bound and
dominates every slot. -/
theorem fold_max_spec (f : Nat → Nat) (n : Nat) :
    (∀ k, k < n → f k ≤ (List.range n).foldl (fun m k => max m (f k)) 0) ∧
      (∀ B, (∀ k, k < n → f k ≤ B) → (List.range n).foldl (fun m k => max m (f k)) 0 ≤ B) := by
  induction n with
  | zero => exact ⟨fun k hk => absurd hk (by omega), fun B _ => by simp⟩
  | succ m ih =>
    obtain ⟨ih1, ih2⟩ := ih
    rw [List.range_succ]
    constructor
    · intro k hk
      rw [List.foldl_append]
      simp only [List.foldl_cons, List.foldl_nil]
      rcases Nat.lt_succ_iff_lt_or_eq.mp hk with hk2 | hk2
      · exact le_trans (ih1 k hk2) (le_max_left _ _)
      · subst hk2; exact le_max_right _ _
    · intro B hB
      rw [List.foldl_append]
      simp only [List.foldl_cons, List.foldl_nil]
      exact max_le (ih2 B fun k hk => hB k (by omega)) (hB m (by omega))

/-- The `freq` result of `get_most_frequent` is the recomputed maximal
label frequency. -/
theorem gmf_freq_eq_max (data : Dataset) (indices : List Nat) :
    (get_most_frequent data indices).2 = ((maxLabelFreq data indices : Int)) := by
  obtain ⟨L, F, heq, hL, hfL, hmax, _⟩ := gmf_spec data indices
  obtain ⟨hdom, hbound⟩ := fold_max_spec (labelCount data indices) 10
  have h1 : maxLabelFreq data indices ≤ F := hbound F hmax
  have h2 : F ≤ maxLabelFreq data indices := hfL ▸ hdom L hL
  rw [heq]
  simp
  omega

/-! The pixel scan of `find_best_split`. -/

theorem fbs_fold_spec (g : Nat → Dbl) (hg : ∀ i, g i = .nan ∨ ∃ q : ℚ, g i = .fin q) :
    ∀ n, ((List.range n).foldl (fbsStep g) (none, .inf) = (none, .inf) ∧
        ∀ i, i < n → g i = .nan) ∨
      (∃ p mq, (List.range n).foldl (fbsStep g) (none, .inf) = (some p, .fin mq) ∧ p < n ∧
        g p = .fin mq ∧ (∀ i, i < n → ∀ x : ℚ, g i = .fin x → mq ≤ x) ∧
        (∀ i, i < p → ∀ x : ℚ, g i = .fin x → mq < x)) := by
  intro n
  induction n with
  | zero => exact Or.inl ⟨rfl, fun i hi => absurd hi (by omega)⟩
  | succ m ih =>
    rw [List.range_succ, List.foldl_append]
    simp only [List.foldl_cons, List.foldl_nil]
    rcases ih with ⟨heq, hnan⟩ | ⟨p, mq, heq, hp, hgp, hmin, hstrict⟩
    · rw [heq]
      rcases hg m with hm | ⟨q, hq⟩
      · left
        constructor
        · unfold fbsStep
          rw [hm]
          simp [dlt_nan_left, deq_nan_left]
        · intro i hi
          rcases Nat.lt_succ_iff_lt_or_eq.mp hi with hi2 | hi2
          · exact hnan i hi2
          · subst hi2; exact hm
      · right
        refine ⟨m, q, ?_, by omega, hq, ?_, ?_⟩
        · unfold fbsStep
          rw [hq]
          simp [dlt, dne, deq]
        · intro i hi x hx
          rcases Nat.lt_succ_iff_lt_or_eq.mp hi with hi2 | hi2
          · rw [hnan i hi2] at hx; cases hx
          · subst hi2
            rw [hq] at hx
            cases hx
            exact le_rfl
        · intro i hi x hx
          rw [hnan i (by omega)] at hx
          cases hx
    · rw [heq]
      rcases hg m with hm | ⟨q, hq⟩
      · right
        refine ⟨p, mq, ?_, by omega, hgp, ?_, hstrict⟩
        · unfold fbsStep
          rw [hm]
          simp [dlt_nan_left, deq_nan_left]
        · intro i hi x hx
          rcases Nat.lt_succ_iff_lt_or_eq.mp hi with hi2 | hi2
          · exact hmin i hi2 x hx
          · subst hi2; rw [hm] at hx; cases hx
      · by_cases hlt1 : q < mq
        · right
          refine ⟨m, q, ?_, by omega, hq, ?_, ?_⟩
          · unfold fbsStep
            rw [hq]
            simp [dlt, dne, deq, hlt1]
          · intro i hi x hx
            rcases Nat.lt_succ_iff_lt_or_eq.mp hi with hi2 | hi2
            · exact le_of_lt (lt_of_lt_of_le hlt1 (hmin i hi2 x hx))
            · subst hi2
              rw [hq] at hx
              cases hx
              exact le_rfl
          · intro i hi x hx
            exact lt_of_lt_of_le hlt1 (hmin i (by omega) x hx)
        · by_cases heq2 : q = mq
          · right
            subst heq2
            refine ⟨p, q, ?_, by omega, hgp, ?_, hstrict⟩
            · unfold fbsStep
              rw [hq]
              simp only [dlt, dne, deq, decide_eq_true_eq]
              rw [if_neg (by simp [hlt1])]
              rw [if_pos (by simp)]
              rw [if_neg (by omega : ¬ m < p)]
            · intro i hi x hx
              rcases Nat.lt_succ_iff_lt_or_eq.mp hi with hi2 | hi2
              · exact hmin i hi2 x hx
              · subst hi2
                rw [hq] at hx
                cases hx
                exact le_rfl
          · right
            have h3 : mq < q := lt_of_le_of_ne (le_of_not_lt hlt1) (fun h => heq2 h.symm)
            refine ⟨p, mq, ?_, by omega, hgp, ?_, hstrict⟩
            · unfold fbsStep
              rw [hq]
              simp only [dlt, dne, deq, decide_eq_true_eq]
              rw [if_neg (by simp [hlt1])]
              rw [if_neg (by simp [heq2])]
            · intro i hi x hx
              rcases Nat.lt_succ_iff_lt_or_eq.mp hi with hi2 | hi2
              · exact hmin i hi2 x hx
              · subst hi2
                rw [hq] at hx
                cases hx
                exact le_of_lt h3

/-- Helper form of claim C2's behavioural content: a returned pixel is
below 784, its impurity is a defined (finite, non-NaN) value, that value
is minimal among all defined impurities, and every smaller pixel with a
defined impurity has a strictly larger one. -/
theorem fbs_some_spec (data : Dataset) (indices : List Nat) (p : Nat)
    (h : find_best_split data indices = some p) :
    ∃ mq : ℚ, p < 784 ∧ gini_impurity data indices p = .fin mq ∧
      (∀ i, i < 784 → ∀ x : ℚ, gini_impurity data indices i = .fin x → mq ≤ x) ∧
      (∀ i, i < p → ∀ x : ℚ, gini_impurity data indices i = .fin x → mq < x) := by
  have hspec := fbs_fold_spec (gini_impurity data indices)
    (gini_impurity_nan_or_fin data indices) 784
  unfold find_best_split at h
  rcases hspec with ⟨heq, _⟩ | ⟨p', mq, heq, hp, hgp, hmin, hstrict⟩
  · rw [heq] at h
    cases h
  · rw [heq] at h
    simp only at h
    cases h
    exact ⟨mq, hp, hgp, hmin, hstrict⟩

/-- If the scan never assigns `best_split` (the C function would return
an uninitialised value), every pixel's impurity is NaN. -/
theorem fbs_none_spec (data : Dataset) (indices : List Nat)
    (h : find_best_split data indices = none) :
    ∀ i, i < 784 → gini_impurity data indices i = .nan := by
  have hspec := fbs_fold_spec (gini_impurity data indices)
    (gini_impurity_nan_or_fin data indices) 784
  unfold find_best_split at h
  rcases hspec with ⟨_, hnan⟩ | ⟨p', mq, heq, _, _, _, _⟩
  · exact hnan
  · rw [heq] at h
    cases h

/-! The recursive builder. -/

theorem get_most_frequent_nil (data : Dataset) : get_most_frequent data [] = (0, 0) := by
  obtain ⟨L, F, heq, hL, hfL, hmax, hmin⟩ := gmf_spec data []
  have hz : ∀ k, labelCount data [] k = 0 := fun k => rfl
  have hF : F = 0 := by rw [← hfL, hz]
  have hLz : L = 0 := by
    by_contra hc
    have := hmin 0 (Nat.pos_of_ne_zero hc)
    rw [hz, hF] at this
    exact absurd this (by omega)
  rw [heq, hLz, hF]
  rfl

theorem leafTestB_nil (data : Dataset) : leafTestB data [] = false := by
  unfold leafTestB
  rw [get_most_frequent_nil]
  rfl

/-- One-step unfolding of `build_subtree` on a positive budget. -/
theorem build_subtree_succ (data : Dataset) (fuel : Nat) (indices : List Nat) :
    build_subtree data (fuel + 1) indices =
      if leafTestB data indices then
        some (.mk (-1) (get_most_frequent data indices).1 none none)
      else
        match find_best_split data indices with
        | none => none
        | some p =>
          match build_subtree data fuel (split_data data indices p).1,
              build_subtree data fuel (split_data data indices p).2 with
          | some l, some r => some (.mk (p : Int) (-1) (some l) (some r))
          | _, _ => none := rfl

theorem leafTestB_true_ne_nil (data : Dataset) (indices : List Nat)
    (h : leafTestB data indices = true) : indices ≠ [] := by
  intro hnil
  subst hnil
  rw [leafTestB_nil] at h
  cases h

theorem dge_ddiv_fin_iff (x M r : ℚ) (hM : M ≠ 0) :
    dge (ddiv (.fin x) (.fin M)) (.fin r) = true ↔ r ≤ x / M := by
  simp only [ddiv, if_neg hM]
  show (deq (.fin (x / M)) (.fin r) || dlt (.fin r) (.fin (x / M))) = true ↔ _
  simp only [deq, dlt, Bool.or_eq_true, decide_eq_true_eq]
  constructor
  · rintro (h | h)
    · exact le_of_eq h.symm
    · exact le_of_lt h
  · intro h
    rcases lt_or_eq_of_le h with h2 | h2
    · right; exact h2
    · left; exact h2.symm

/-- The leaf test of the builder, on a non-empty subset, is the exact
rational comparison the specification states. -/
theorem leafTestB_iff (data : Dataset) (indices : List Nat) (h : indices.length ≠ 0) :
    leafTestB data indices = true ↔
      THRESHOLD ≤ ((get_most_frequent data indices).2 : ℚ) / (indices.length : ℚ) := by
  unfold leafTestB
  exact dge_ddiv_fin_iff _ _ _ (Nat.cast_ne_zero.mpr h)

theorem length_ne_zero_of_mem {l : List Nat} {a : Nat} (h : a ∈ l) : l.length ≠ 0 := by
  have := List.length_pos.mpr (List.ne_nil_of_mem h)
  omega

/-- A subset whose labels are all equal (and in range) passes the leaf
test: its majority ratio is 1. -/
theorem leafTestB_of_const_label (data : Dataset) (indices : List Nat) (hne : indices ≠ [])
    (hval : ∀ i ∈ indices, data.labels i < 10)
    (hconst : ∀ i ∈ indices, ∀ j ∈ indices, data.labels i = data.labels j) :
    leafTestB data indices = true := by
  have hlen : indices.length ≠ 0 := fun h0 => hne (List.length_eq_zero.mp h0)
  obtain ⟨i0, hi0⟩ := List.exists_mem_of_ne_nil indices hne
  have hcnt : labelCount data indices (data.labels i0) = indices.length := by
    unfold labelCount
    have hall : ∀ x ∈ indices, (decide (data.labels x = data.labels i0)) = true :=
      fun x hx => decide_eq_true (hconst x hx i0 hi0)
    rw [List.filter_eq_self.mpr hall]
  obtain ⟨L, F, heq, hL, hfL, hmax, _⟩ := gmf_spec data indices
  have hFle : F ≤ indices.length := hfL ▸ labelCount_le_length data indices L
  have hMle : indices.length ≤ F := by
    have := hmax (data.labels i0) (hval i0 hi0)
    omega
  rw [leafTestB_iff data indices hlen, heq]
  show THRESHOLD ≤ ((F : Int) : ℚ) / (indices.length : ℚ)
  have h1 : (((F : Int) : ℚ)) / (indices.length : ℚ) = 1 := by
    have hFM : F = indices.length := le_antisymm hFle hMle
    rw [hFM]
    push_cast
    exact div_self (Nat.cast_ne_zero.mpr hlen)
  rw [h1]
  norm_num [THRESHOLD]

/-- One unfolding of a successful `build_subtree` call: the case analysis
of claim C1. -/
theorem build_dichotomy_core (data : Dataset) (fuel : Nat) (indices : List Nat) (t : DTNode)
    (hne : indices ≠ []) (h : build_subtree data (fuel + 1) indices = some t) :
    BuildDichotomy data fuel indices t := by
  have hlen : indices.length ≠ 0 := fun h0 => hne (List.length_eq_zero.mp h0)
  rw [build_subtree_succ] at h
  by_cases hl : leafTestB data indices
  · rw [if_pos hl] at h
    exact Or.inl ⟨(leafTestB_iff data indices hlen).mp hl, (Option.some.inj h).symm⟩
  · rw [if_neg hl] at h
    refine Or.inr ⟨fun hc => hl ((leafTestB_iff data indices hlen).mpr hc), ?_⟩
    rcases hfbs : find_best_split data indices with _ | p
    · rw [hfbs] at h
      cases h
    · rw [hfbs] at h
      dsimp only at h
      rcases hbl : build_subtree data fuel (split_data data indices p).1 with _ | l
      · rw [hbl] at h
        dsimp only at h
        cases h
      · rcases hbr : build_subtree data fuel (split_data data indices p).2 with _ | r
        · rw [hbl, hbr] at h
          dsimp only at h
          cases h
        · rw [hbl, hbr] at h
          dsimp only at h
          exact ⟨p, l, r, rfl, hbl, hbr, (Option.some.inj h).symm⟩

/-- Every node a successful `build_subtree` call returns is well formed:
leaves carry `pixel = -1`, a classification in `[0, 9]` and null
children; split nodes carry `classification = -1`, a pixel in `[0, 783]`
and two non-null children. -/
theorem build_subtree_wf (data : Dataset) :
    ∀ fuel indices t, build_subtree data fuel indices = some t → wellFormed t = true := by
  intro fuel
  induction fuel with
  | zero => intro indices t h; cases h
  | succ f ih =>
    intro indices t h
    rw [build_subtree_succ] at h
    by_cases hl : leafTestB data indices
    · rw [if_pos hl] at h
      cases h
      obtain ⟨L, F, heq, hL, _, _, _⟩ := gmf_spec data indices
      simp only [wellFormed, heq, Bool.and_eq_true, decide_eq_true_eq]
      refine ⟨⟨trivial, ?_⟩, ?_⟩
      · exact Int.natCast_nonneg L
      · exact_mod_cast hL
    · rw [if_neg hl] at h
      rcases hfbs : find_best_split data indices with _ | p
      · rw [hfbs] at h
        cases h
      · rw [hfbs] at h
        dsimp only at h
        rcases hbl : build_subtree data f (split_data data indices p).1 with _ | l
        · rw [hbl] at h
          dsimp only at h
          cases h
        · rcases hbr : build_subtree data f (split_data data indices p).2 with _ | r
          · rw [hbl, hbr] at h
            dsimp only at h
            cases h
          · rw [hbl, hbr] at h
            dsimp only at h
            cases h
            obtain ⟨mq, hplt, _, _, _⟩ := fbs_some_spec data indices p hfbs
            simp only [wellFormed, Bool.and_eq_true, decide_eq_true_eq]
            exact ⟨⟨⟨⟨trivial, Int.natCast_nonneg p⟩, by exact_mod_cast hplt⟩, ih _ _ hbl⟩,
              ih _ _ hbr⟩

/-- At every node of a built tree, the `classification != -1` leaf test
agrees with the absence of children. -/
theorem build_subtree_cmc (data : Dataset) :
    ∀ fuel indices t, build_subtree data fuel indices = some t →
      classifMatchesChildren t = true := by
  intro fuel
  induction fuel with
  | zero => intro indices t h; cases h
  | succ f ih =>
    intro indices t h
    rw [build_subtree_succ] at h
    by_cases hl : leafTestB data indices
    · rw [if_pos hl] at h
      cases h
      obtain ⟨L, F, heq, hL, _, _, _⟩ := gmf_spec data indices
      have hneg : ((L : Int)) ≠ -1 := by omega
      simp [classifMatchesChildren, heq, hneg]
    · rw [if_neg hl] at h
      rcases hfbs : find_best_split data indices with _ | p
      · rw [hfbs] at h
        cases h
      · rw [hfbs] at h
        dsimp only at h
        rcases hbl : build_subtree data f (split_data data indices p).1 with _ | l
        · rw [hbl] at h
          dsimp only at h
          cases h
        · rcases hbr : build_subtree data f (split_data data indices p).2 with _ | r
          · rw [hbl, hbr] at h
            dsimp only at h
            cases h
          · rw [hbl, hbr] at h
            dsimp only at h
            cases h
            simp only [classifMatchesChildren, Option.isNone_some, Bool.and_false,
              Bool.and_eq_true, beq_iff_eq, decide_eq_true_eq]
            exact ⟨⟨by simp, ih _ _ hbl⟩, ih _ _ hbr⟩

/-- Every leaf of a built tree comes from a subset whose recomputed
majority ratio reaches the threshold (which subsumes the size-1 case). -/
theorem build_subtree_leaves_ok (data : Dataset) :
    ∀ fuel indices t, build_subtree data fuel indices = some t →
      leavesRatioOK data t indices := by
  intro fuel
  induction fuel with
  | zero => intro indices t h; cases h
  | succ f ih =>
    intro indices t h
    rw [build_subtree_succ] at h
    by_cases hl : leafTestB data indices
    · rw [if_pos hl] at h
      cases h
      have hne := leafTestB_true_ne_nil data indices hl
      have hlen : indices.length ≠ 0 := fun h0 => hne (List.length_eq_zero.mp h0)
      have hratio := (leafTestB_iff data indices hlen).mp hl
      rw [gmf_freq_eq_max data indices] at hratio
      simp only [leavesRatioOK]
      left
      push_cast at hratio ⊢
      exact hratio
    · rw [if_neg hl] at h
      rcases hfbs : find_best_split data indices with _ | p
      · rw [hfbs] at h
        cases h
      · rw [hfbs] at h
        dsimp only at h
        rcases hbl : build_subtree data f (split_data data indices p).1 with _ | l
        · rw [hbl] at h
          dsimp only at h
          cases h
        · rcases hbr : build_subtree data f (split_data data indices p).2 with _ | r
          · rw [hbl, hbr] at h
            dsimp only at h
            cases h
          · rw [hbl, hbr] at h
            dsimp only at h
            cases h
            simp only [leavesRatioOK, Int.toNat_natCast]
            exact ⟨ih _ _ hbl, ih _ _ hbr⟩

/-- Totality of the builder under the separability hypothesis: with
in-range labels, and any two differently-labelled examples distinguished
by some pixel's 128-threshold, the builder returns a tree on every
non-empty subset, for any budget exceeding the subset size. -/
theorem build_subtree_total (data : Dataset)
    (hval : ∀ i, i < data.num_items → data.labels i < 10)
    (hsep : ∀ i, i < data.num_items → ∀ j, j < data.num_items →
      data.labels i ≠ data.labels j →
      ∃ p, p < 784 ∧ leftPred data p i ≠ leftPred data p j) :
    ∀ fuel indices, indices ≠ [] → indices.length < fuel →
      (∀ i ∈ indices, i < data.num_items) →
      ∃ t, build_subtree data fuel indices = some t := by
  intro fuel
  induction fuel with
  | zero => intro indices hne hlt _; exact absurd hlt (by omega)
  | succ f ih =>
    intro indices hne hlt hmem
    rw [build_subtree_succ]
    by_cases hl : leafTestB data indices
    · rw [if_pos hl]
      exact ⟨_, rfl⟩
    · rw [if_neg hl]
      have hvl : ∀ i ∈ indices, data.labels i < 10 := fun i hi => hval i (hmem i hi)
      have hnc : ∃ i ∈ indices, ∃ j ∈ indices, data.labels i ≠ data.labels j := by
        by_contra hc
        push_neg at hc
        exact hl (leafTestB_of_const_label data indices hne hvl hc)
      obtain ⟨i, hi, j, hj, hij⟩ := hnc
      obtain ⟨p0, hp0, hdiff⟩ := hsep i (hmem i hi) j (hmem j hj) hij
      have hAB : (groupA data indices p0).length ≠ 0 ∧ (groupB data indices p0).length ≠ 0 := by
        cases hbi : leftPred data p0 i with
        | true =>
          have hbj : leftPred data p0 j = false := by
            cases hbj2 : leftPred data p0 j
            · rfl
            · exact absurd (hbi.trans hbj2.symm) hdiff
          exact ⟨length_ne_zero_of_mem ((mem_groupA data indices p0 i).mpr ⟨hi, hbi⟩),
            length_ne_zero_of_mem ((mem_groupB data indices p0 j).mpr ⟨hj, hbj⟩)⟩
        | false =>
          have hbj : leftPred data p0 j = true := by
            cases hbj2 : leftPred data p0 j
            · exact absurd (hbi.trans hbj2.symm) hdiff
            · rfl
          exact ⟨length_ne_zero_of_mem ((mem_groupA data indices p0 j).mpr ⟨hj, hbj⟩),
            length_ne_zero_of_mem ((mem_groupB data indices p0 i).mpr ⟨hi, hbi⟩)⟩
      have hfin := gini_impurity_eq_fin data indices p0 hAB.1 hAB.2
      rcases hfbs : find_best_split data indices with _ | p
      · have := fbs_none_spec data indices hfbs p0 hp0
        rw [hfin] at this
        cases this
      · obtain ⟨mq, hplt, hgp, _, _⟩ := fbs_some_spec data indices p hfbs
        have hABp := gini_impurity_fin_groups data indices p mq hgp
        have hsum := groupA_groupB_length data indices p
        have hlenA : (groupA data indices p).length < f := by omega
        have hlenB : (groupB data indices p).length < f := by omega
        have hneA : groupA data indices p ≠ [] := fun h0 => hABp.1 (by rw [h0]; rfl)
        have hneB : groupB data indices p ≠ [] := fun h0 => hABp.2 (by rw [h0]; rfl)
        have hmemA : ∀ x ∈ groupA data indices p, x < data.num_items :=
          fun x hx => hmem x ((mem_groupA data indices p x).mp hx).1
        have hmemB : ∀ x ∈ groupB data indices p, x < data.num_items :=
          fun x hx => hmem x ((mem_groupB data indices p x).mp hx).1
        obtain ⟨l, hL⟩ := ih (groupA data indices p) hneA hlenA hmemA
        obtain ⟨r, hR⟩ := ih (groupB data indices p) hneB hlenB hmemB
        refine ⟨.mk (p : Int) (-1) (some l) (some r), ?_⟩
        have hsplit1 : (split_data data indices p).1 = groupA data indices p := rfl
        have hsplit2 : (split_data data indices p).2 = groupB data indices p := rfl
        dsimp only
        rw [hsplit1, hsplit2, hL, hR]

/-! The classification walk. -/

theorem DTNode.size_pos (t : DTNode) : 0 < t.size := by
  cases t with
  | mk p c l r =>
    rw [DTNode.size.eq_def]
    dsimp only
    omega

/-- On a well-formed tree, `dec_tree_classify` returns exactly the
classification of the leaf the specification's walk reaches (descend left
iff the intensity at the node's pixel is exactly 0). -/
theorem classify_walk_aux (img : Image) :
    ∀ n t, DTNode.size t ≤ n → wellFormed t = true →
      ∃ lf, specWalk t img = some lf ∧ lf.left = none ∧ lf.right = none ∧
        dec_tree_classify t img = some lf.classification := by
  intro n
  induction n with
  | zero =>
    intro t hs _
    have := DTNode.size_pos t
    omega
  | succ m ih =>
    intro t hs hw
    cases t with
    | mk p c l r =>
      cases l with
      | none =>
        cases r with
        | none =>
          simp only [wellFormed, Bool.and_eq_true, decide_eq_true_eq] at hw
          obtain ⟨⟨hp, hc0⟩, hc10⟩ := hw
          refine ⟨.mk p c none none, rfl, rfl, rfl, ?_⟩
          show dec_tree_classify (.mk p c none none) img = some c
          unfold dec_tree_classify
          rw [if_pos (by omega : c ≠ -1)]
        | some r' =>
          simp [wellFormed] at hw
      | some l' =>
        cases r with
        | none => simp [wellFormed] at hw
        | some r' =>
          simp only [wellFormed, Bool.and_eq_true, decide_eq_true_eq] at hw
          obtain ⟨⟨⟨⟨hc, hp0⟩, hp784⟩, hwl⟩, hwr⟩ := hw
          have hsl : DTNode.size l' ≤ m := by
            have hsz : DTNode.size (.mk p c (some l') (some r')) =
                1 + DTNode.size l' + DTNode.size r' := by
              rw [DTNode.size.eq_def]
            have := DTNode.size_pos r'
            omega
          have hsr : DTNode.size r' ≤ m := by
            have hsz : DTNode.size (.mk p c (some l') (some r')) =
                1 + DTNode.size l' + DTNode.size r' := by
              rw [DTNode.size.eq_def]
            have := DTNode.size_pos l'
            omega
          by_cases h0 : img.data p.toNat = 0
          · obtain ⟨lf, hwalk, hlfl, hlfr, hcl⟩ := ih l' hsl hwl
            refine ⟨lf, ?_, hlfl, hlfr, ?_⟩
            · show specWalk (.mk p c (some l') (some r')) img = some lf
              unfold specWalk
              rw [if_pos h0]
              exact hwalk
            · show dec_tree_classify (.mk p c (some l') (some r')) img = some lf.classification
              unfold dec_tree_classify
              rw [if_neg (by omega : ¬ c ≠ -1), if_pos h0]
              exact hcl
          · obtain ⟨lf, hwalk, hlfl, hlfr, hcl⟩ := ih r' hsr hwr
            refine ⟨lf, ?_, hlfl, hlfr, ?_⟩
            · show specWalk (.mk p c (some l') (some r')) img = some lf
              unfold specWalk
              rw [if_neg h0]
              exact hwalk
            · show dec_tree_classify (.mk p c (some l') (some r')) img = some lf.classification
              unfold dec_tree_classify
              rw [if_neg (by omega : ¬ c ≠ -1), if_neg h0]
              exact hcl

/-! Derived facts about concrete runs, obtained from the invariants
rather than by brute-force evaluation of the 784-pixel scan. -/

/-- A defined (finite) impurity lies in `[0, 1]`. -/
theorem gini_fin_bounds (data : Dataset) (indices : List Nat) (pixel : Nat) (q : ℚ)
    (h : gini_impurity data indices pixel = .fin q) : 0 ≤ q ∧ q ≤ 1 := by
  obtain ⟨hA, hB⟩ := gini_impurity_fin_groups data indices pixel q h
  have heq := gini_impurity_eq_fin data indices pixel hA hB
  rw [heq] at h
  cases h
  obtain ⟨hA0, hA1⟩ := giniSumQ_bounds data (groupA data indices pixel) hA
  obtain ⟨hB0, hB1⟩ := giniSumQ_bounds data (groupB data indices pixel) hB
  have hsum := groupA_groupB_length data indices pixel
  have hM : (0 : ℚ) < (indices.length : ℚ) := by
    have hM0 : indices.length ≠ 0 := by omega
    exact_mod_cast Nat.pos_of_ne_zero hM0
  have hAq : (0 : ℚ) ≤ ((groupA data indices pixel).length : ℚ) := Nat.cast_nonneg _
  have hBq : (0 : ℚ) ≤ ((groupB data indices pixel).length : ℚ) := Nat.cast_nonneg _
  have hcast : ((groupA data indices pixel).length : ℚ)
      + ((groupB data indices pixel).length : ℚ) = (indices.length : ℚ) := by
    exact_mod_cast hsum
  constructor
  · exact div_nonneg (add_nonneg (mul_nonneg hA0 hAq) (mul_nonneg hB0 hBq)) (le_of_lt hM)
  · rw [div_le_one hM]
    nlinarith [hA1, hB1, hAq, hBq]

/-- On the empty subset the scan never assigns `best_split`: every
impurity is `0/0 = NaN`. -/
theorem fbs_nil (data : Dataset) : find_best_split data [] = none := by
  rcases hfbs : find_best_split data [] with _ | p
  · rfl
  · obtain ⟨mq, _, hgp, _, _⟩ := fbs_some_spec data [] p hfbs
    rw [gini_impurity_eq_nan data [] p (Or.inl rfl)] at hgp
    cases hgp

/-- On the empty subset `build_subtree` does not form a leaf: the leaf
test fails (NaN ratio) and the split selection is undefined behavior. -/
theorem build_subtree_nil (data : Dataset) (fuel : Nat) :
    build_subtree data (fuel + 1) [] = none := by
  rw [build_subtree_succ, if_neg (by rw [leafTestB_nil]; exact Bool.false_ne_true), fbs_nil]

/-- In `dTwin` the two images agree at every pixel, so the right group is
always empty and every impurity is NaN; the scan returns nothing. -/
theorem fbs_dTwin : find_best_split dTwin [0, 1] = none := by
  rcases hfbs : find_best_split dTwin [0, 1] with _ | p
  · rfl
  · obtain ⟨mq, _, hgp, _, _⟩ := fbs_some_spec dTwin [0, 1] p hfbs
    have hB : (groupB dTwin [0, 1] p).length = 0 := by
      have hBnil : groupB dTwin [0, 1] p = [] := rfl
      rw [hBnil]
      rfl
    rw [gini_impurity_eq_nan dTwin [0, 1] p (Or.inr hB)] at hgp
    cases hgp

theorem gmf_dTwin : get_most_frequent dTwin [0, 1] = (0, 1) := by decide

/-- On `dTwin`'s full index set the majority ratio is 1/2, short of the
threshold. -/
theorem leafTestB_dTwin : leafTestB dTwin [0, 1] = false := by
  cases hb : leafTestB dTwin [0, 1]
  · rfl
  · exfalso
    have h := (leafTestB_iff dTwin [0, 1] (by decide)).mp hb
    rw [gmf_dTwin] at h
    norm_num [THRESHOLD] at h

/-- With any budget, the builder never completes on `dTwin`'s full index
set: the subset is impure (ratio 1/2), all impurities are NaN, and the C
source reads its uninitialised `best_split` (undefined behavior). -/
theorem build_dTwin_none : ∀ fuel, build_subtree dTwin fuel [0, 1] = none := by
  intro fuel
  cases fuel with
  | zero => rfl
  | succ f =>
    rw [build_subtree_succ,
      if_neg (by rw [leafTestB_dTwin]; exact Bool.false_ne_true), fbs_dTwin]

/-- Pixel 0 of `dSplit` separates items 0 and 2 into two pure singleton
groups, so its impurity is the defined value 0. -/
theorem gini_dSplit_zero : gini_impurity dSplit [0, 2] 0 = .fin 0 := by
  have hA : groupA dSplit [0, 2] 0 = [0] := by decide
  have hB : groupB dSplit [0, 2] 0 = [2] := by decide
  rw [gini_impurity_eq_fin dSplit [0, 2] 0 (by rw [hA]; decide) (by rw [hB]; decide)]
  rw [hA, hB]
  congr 1
  norm_num [Finset.sum_range_succ, labelCount, List.filter, dSplit]

/-- The scan on `dSplit`'s items 0 and 2 selects pixel 0: its impurity is
0, the smallest value a defined impurity can take, and 0 is the smallest
pixel index. -/
theorem fbs_dSplit : find_best_split dSplit [0, 2] = some 0 := by
  rcases hfbs : find_best_split dSplit [0, 2] with _ | p
  · have := fbs_none_spec dSplit [0, 2] hfbs 0 (by omega)
    rw [gini_dSplit_zero] at this
    cases this
  · obtain ⟨mq, hplt, hgp, hmin, hstrict⟩ := fbs_some_spec dSplit [0, 2] p hfbs
    have hp0 : p = 0 := by
      by_contra hc
      have h1 := hstrict 0 (Nat.pos_of_ne_zero hc) 0 gini_dSplit_zero
      have h2 := (gini_fin_bounds dSplit [0, 2] p mq hgp).1
      linarith
    rw [hp0]

theorem gmf_dPure : get_most_frequent dPure [0, 1] = (3, 2) := by decide

/-- On `dPure`'s full index set the majority ratio is 1, passing the
threshold. -/
theorem leafTestB_dPure : leafTestB dPure [0, 1] = true := by
  rw [leafTestB_iff dPure [0, 1] (by decide), gmf_dPure]
  norm_num [THRESHOLD]

/-- The builder on `dPure`'s full index set stops immediately: both
labels are 3, the ratio is 1, and the result is a single leaf. -/
theorem build_dPure : build_subtree dPure 2 [0, 1] = some (.mk (-1) 3 none none) := by
  rw [build_subtree_succ, if_pos leafTestB_dPure, gmf_dPure]

/-- On `dSplit`, every pair of differently labelled items is separated by
pixel 0 under the 128 threshold. -/
theorem dSplit_sep : ∀ i, i < dSplit.num_items → ∀ j, j < dSplit.num_items →
    dSplit.labels i ≠ dSplit.labels j →
    ∃ p, p < 784 ∧ leftPred dSplit p i ≠ leftPred dSplit p j := by
  intro i hi j hj hij
  refine ⟨0, by omega, ?_⟩
  have hi4 : i < 4 := hi
  have hj4 : j < 4 := hj
  interval_cases i <;> interval_cases j <;> revert hij <;> decide

/-! Claim theorems. -/

/-- C1: for every dataset and non-empty index subset, a completed
`build_subtree` call emits a leaf carrying the majority label exactly
when the majority count over the subset size reaches the 0.95 threshold,
and otherwise emits a split node holding the `find_best_split` pixel and
the two children built recursively on the `split_data` parts. -/
theorem build_subtree_leaf_or_split (data : Dataset) (fuel : Nat) (indices : List Nat)
    (t : DTNode) (hne : indices ≠ [])
    (h : build_subtree data (fuel + 1) indices = some t) :
    BuildDichotomy data fuel indices t :=
  build_dichotomy_core data fuel indices t hne h

/-- C1 witness: on `dPure` (two identical images labelled 3) the ratio is
1 and the builder emits the leaf labelled 3. -/
theorem build_subtree_leaf_or_split_witness :
    BuildDichotomy dPure 1 [0, 1] (.mk (-1) 3 none none) :=
  build_subtree_leaf_or_split dPure 1 [0, 1] _ (by decide) build_dPure

/-- C2 (amended): a pixel returned by `find_best_split` always has a
defined (finite, non-NaN) impurity, minimal among all defined impurities
over pixels 0..783, and is the smallest index attaining that minimum.
(The exclusion of NaN is achieved by NaN failing the ordered comparisons
with the running minimum, not by the source's vacuous `!= NAN` test; see
the counterexample.) -/
theorem find_best_split_defined_min (data : Dataset) (indices : List Nat) (p : Nat)
    (h : find_best_split data indices = some p) :
    gini_impurity data indices p ≠ .nan ∧ p < 784 ∧
      ∃ mq : ℚ, gini_impurity data indices p = .fin mq ∧
        (∀ i, i < 784 → ∀ x : ℚ, gini_impurity data indices i = .fin x → mq ≤ x) ∧
        (∀ i, i < p → ∀ x : ℚ, gini_impurity data indices i = .fin x → mq < x) := by
  obtain ⟨mq, hplt, hgp, hmin, hstrict⟩ := fbs_some_spec data indices p h
  refine ⟨?_, hplt, mq, hgp, hmin, hstrict⟩
  rw [hgp]
  intro hc
  cases hc

/-- C2 witness: on `dSplit`'s items 0 and 2 the scan returns pixel 0,
whose impurity is defined and minimal. -/
theorem find_best_split_defined_min_witness :
    gini_impurity dSplit [0, 2] 0 ≠ .nan ∧ 0 < 784 ∧
      ∃ mq : ℚ, gini_impurity dSplit [0, 2] 0 = .fin mq ∧
        (∀ i, i < 784 → ∀ x : ℚ, gini_impurity dSplit [0, 2] i = .fin x → mq ≤ x) ∧
        (∀ i, i < 0 → ∀ x : ℚ, gini_impurity dSplit [0, 2] i = .fin x → mq < x) :=
  find_best_split_defined_min dSplit [0, 2] 0 fbs_dSplit

/-- C2 counterexample: the claim says NaN impurities are excluded by an
explicit definedness check rather than a comparison against a sentinel.
In the source the only explicit exclusion is the comparison
`pixel_impurity != NAN`, and at a concrete input whose impurity IS NaN
(pixel 0 of `dTwin` on subset `[0, 1]`) that comparison still evaluates
to true — an IEEE `!=` against NaN is true for every operand — so it
excludes nothing: the check is not a definedness check. -/
theorem nan_filter_comparison_vacuous :
    gini_impurity dTwin [0, 1] 0 = .nan ∧
      dne (gini_impurity dTwin [0, 1] 0) .nan = true ∧
      dne Dbl.nan Dbl.nan = true := by
  have hg : gini_impurity dTwin [0, 1] 0 = .nan :=
    gini_impurity_eq_nan dTwin [0, 1] 0 (Or.inr (by decide))
  exact ⟨hg, by rw [hg]; rfl, rfl⟩

/-- C3 (amended): for a finite non-empty dataset with labels in `[0, 9]`
in which any two differently labelled examples differ at some pixel under
the 128 threshold, `build_dec_tree` returns a tree, and every leaf was
built from a subset whose recomputed majority ratio reaches 0.95 or whose
size is 1.  (Without the separability hypothesis the builder can fail:
see the counterexample.) -/
theorem build_dec_tree_total_separable (data : Dataset)
    (hN : 0 < data.num_items)
    (hval : ∀ i, i < data.num_items → data.labels i < 10)
    (hsep : ∀ i, i < data.num_items → ∀ j, j < data.num_items →
      data.labels i ≠ data.labels j →
      ∃ p, p < 784 ∧ leftPred data p i ≠ leftPred data p j) :
    ∃ t, build_dec_tree data = some t ∧
      leavesRatioOK data t (List.range data.num_items) := by
  obtain ⟨t, ht⟩ := build_subtree_total data hval hsep (data.num_items + 1)
    (List.range data.num_items)
    (by intro h; rw [List.range_eq_nil] at h; omega)
    (by simp)
    (fun i hi => List.mem_range.mp hi)
  exact ⟨t, ht, build_subtree_leaves_ok data _ _ _ ht⟩

/-- C3 witness: `dSplit` satisfies the hypotheses (pixel 0 separates the
two label classes), so the build completes with the leaf guarantee. -/
theorem build_dec_tree_total_separable_witness :
    ∃ t, build_dec_tree dSplit = some t ∧
      leavesRatioOK dSplit t (List.range dSplit.num_items) :=
  build_dec_tree_total_separable dSplit (by decide) (by decide) dSplit_sep

/-- C3 counterexample: `dTwin` is a finite non-empty dataset (two
identical images labelled 0 and 1) on which `build_dec_tree` returns no
tree: the root subset is impure (ratio 1/2), every pixel's impurity is
NaN, and the source reads its uninitialised `best_split` (undefined
behavior) instead of terminating with a tree. -/
theorem build_dec_tree_identical_images_no_tree :
    0 < dTwin.num_items ∧ build_dec_tree dTwin = none := by
  refine ⟨by decide, ?_⟩
  show build_subtree dTwin 3 [0, 1] = none
  exact build_dTwin_none 3

/-- C4: evaluation at the failing input.  A split of `dTwin`'s full
subset at pixel 0 has an empty right side; on the empty subset the code
does not short-circuit to a leaf: `get_most_frequent` yields label 0 with
count 0, the `0/0` majority ratio is NaN so the leaf test fails, and the
builder falls into the split branch where `find_best_split` leaves
`best_split` unassigned (undefined behavior) — for any recursion budget
no leaf (indeed no node) is produced, on the empty side or on the
non-empty side. -/
theorem empty_side_not_leaf :
    (split_data dTwin [0, 1] 0).2 = [] ∧
      get_most_frequent dTwin [] = (0, 0) ∧
      leafTestB dTwin [] = false ∧
      find_best_split dTwin [] = none ∧
      (∀ fuel, build_subtree dTwin (fuel + 1) [] = none) ∧
      (∀ fuel, build_subtree dTwin fuel [0, 1] = none) :=
  ⟨rfl, get_most_frequent_nil dTwin, leafTestB_nil dTwin, fbs_nil dTwin,
    build_subtree_nil dTwin, build_dTwin_none⟩

/-- C5: with in-range labels, `gini_impurity` computes exactly the
specification's formula: partition at the pixel, per-group impurity
`1 - sum of squared label proportions`, size-weighted average, NaN when a
group is empty.  (The source accumulates `p*(1-p)`; the proportions sum
to 1, so the two forms agree.) -/
theorem gini_impurity_matches_spec_formula (data : Dataset) (indices : List Nat)
    (pixel : Nat) (hval : ∀ i ∈ indices, data.labels i < 10) :
    gini_impurity data indices pixel = giniSpec data indices pixel := by
  unfold giniSpec
  by_cases h : (groupA data indices pixel).length = 0 ∨ (groupB data indices pixel).length = 0
  · rw [if_pos h]
    exact gini_impurity_eq_nan data indices pixel h
  · push_neg at h
    rw [if_neg (by push_neg; exact h)]
    rw [gini_impurity_eq_fin data indices pixel h.1 h.2]
    have hvalA : ∀ i ∈ groupA data indices pixel, data.labels i < 10 :=
      fun i hi => hval i ((mem_groupA data indices pixel i).mp hi).1
    have hvalB : ∀ i ∈ groupB data indices pixel, data.labels i < 10 :=
      fun i hi => hval i ((mem_groupB data indices pixel i).mp hi).1
    rw [giniSumQ_eq_gSpec data _ h.1 hvalA, giniSumQ_eq_gSpec data _ h.2 hvalB]

/-- C5 witness: the source computation and the specification formula
agree on `dSplit`'s items 0 and 2 at pixel 0. -/
theorem gini_impurity_matches_spec_formula_witness :
    gini_impurity dSplit [0, 2] 0 = giniSpec dSplit [0, 2] 0 :=
  gini_impurity_matches_spec_formula dSplit [0, 2] 0 (by decide)

/-- C6: the impurity is a finite value in `[0, 1]` when both groups are
non-empty, and is the NaN sentinel (the propagated `0/0`) whenever either
group is empty. -/
theorem gini_impurity_range_and_nan (data : Dataset) (indices : List Nat) (pixel : Nat) :
    ((groupA data indices pixel).length ≠ 0 → (groupB data indices pixel).length ≠ 0 →
      ∃ q : ℚ, gini_impurity data indices pixel = .fin q ∧ 0 ≤ q ∧ q ≤ 1) ∧
      ((groupA data indices pixel).length = 0 ∨ (groupB data indices pixel).length = 0 →
        gini_impurity data indices pixel = .nan) := by
  constructor
  · intro hA hB
    have heq := gini_impurity_eq_fin data indices pixel hA hB
    obtain ⟨h0, h1⟩ := gini_fin_bounds data indices pixel _ heq
    exact ⟨_, heq, h0, h1⟩
  · exact gini_impurity_eq_nan data indices pixel

/-- C6 witness: on `dSplit`'s items 0 and 2, pixel 0 gives a finite value
in `[0, 1]` (both groups non-empty) and pixel 1 gives NaN (right group
empty). -/
theorem gini_impurity_range_and_nan_witness :
    (∃ q : ℚ, gini_impurity dSplit [0, 2] 0 = .fin q ∧ 0 ≤ q ∧ q ≤ 1) ∧
      gini_impurity dSplit [0, 2] 1 = .nan :=
  ⟨(gini_impurity_range_and_nan dSplit [0, 2] 0).1 (by decide) (by decide),
    (gini_impurity_range_and_nan dSplit [0, 2] 1).2 (Or.inr (by decide))⟩

/-- C7: `split_data` is a lossless, order-preserving partition: the two
output sizes sum to the input size, each output is a sublist of the input
(hence in original relative order), and membership in the left (resp.
right) output is exactly membership in the input with intensity below
(resp. not below) 128 at the pixel — so every input index lands in
exactly one output. -/
theorem split_data_partition (data : Dataset) (indices : List Nat) (pixel : Nat) :
    (split_data data indices pixel).1.length + (split_data data indices pixel).2.length
        = indices.length ∧
      List.Sublist (split_data data indices pixel).1 indices ∧
      List.Sublist (split_data data indices pixel).2 indices ∧
      (∀ i, i ∈ (split_data data indices pixel).1 ↔
        i ∈ indices ∧ leftPred data pixel i = true) ∧
      (∀ i, i ∈ (split_data data indices pixel).2 ↔
        i ∈ indices ∧ leftPred data pixel i = false) :=
  ⟨groupA_groupB_length data indices pixel,
    List.filter_sublist _,
    List.filter_sublist _,
    mem_groupA data indices pixel,
    mem_groupB data indices pixel⟩

/-- C7 witness: concrete instance of the partition equation. -/
theorem split_data_partition_witness :
    (split_data dSplit [0, 2] 0).1.length + (split_data dSplit [0, 2] 0).2.length = 2 :=
  (split_data_partition dSplit [0, 2] 0).1

/-- C8: for a non-empty subset with in-range labels, `get_most_frequent`
stores the true maximum label frequency and the smallest label in
`[0, 9]` attaining it. -/
theorem get_most_frequent_max_and_tiebreak (data : Dataset) (indices : List Nat)
    (hne : indices ≠ []) (hval : ∀ i ∈ indices, data.labels i < 10) :
    ∃ L F : Nat, get_most_frequent data indices = ((L : Int), (F : Int)) ∧
      L < 10 ∧ 0 < F ∧ labelCount data indices L = F ∧
      (∀ k, labelCount data indices k ≤ F) ∧
      (∀ k, labelCount data indices k = F → L ≤ k) := by
  obtain ⟨L, F, heq, hL, hfL, hmax, hmin⟩ := gmf_spec data indices
  obtain ⟨i0, hi0⟩ := List.exists_mem_of_ne_nil indices hne
  have hc : 0 < labelCount data indices (data.labels i0) := by
    unfold labelCount
    exact List.length_pos.mpr (List.ne_nil_of_mem (List.mem_filter.mpr ⟨hi0, by simp⟩))
  have hF : 0 < F := lt_of_lt_of_le hc (hmax _ (hval i0 hi0))
  refine ⟨L, F, heq, hL, hF, hfL, ?_, ?_⟩
  · intro k
    by_cases hk : k < 10
    · exact hmax k hk
    · have hz : labelCount data indices k = 0 := by
        unfold labelCount
        rw [List.length_eq_zero, List.filter_eq_nil_iff]
        intro a ha
        have h10 := hval a ha
        simp only [decide_eq_true_eq]
        omega
      omega
  · intro k hk
    by_contra hkL
    push_neg at hkL
    have := hmin k hkL
    omega

/-- C8 witness: on `dPure`'s full subset the result is label 3 with
count 2, the true maximum. -/
theorem get_most_frequent_max_and_tiebreak_witness :
    ∃ L F : Nat, get_most_frequent dPure [0, 1] = ((L : Int), (F : Int)) ∧
      L < 10 ∧ 0 < F ∧ labelCount dPure [0, 1] L = F ∧
      (∀ k, labelCount dPure [0, 1] k ≤ F) ∧
      (∀ k, labelCount dPure [0, 1] k = F → L ≤ k) :=
  get_most_frequent_max_and_tiebreak dPure [0, 1] (by decide) (by decide)

/-- C9: on any well-formed tree (in particular any built tree),
`dec_tree_classify` returns exactly the classification of the leaf
reached by the walk the specification describes: descend to the left
child exactly when the image's intensity at the node's pixel equals 0,
and to the right child otherwise — the strict equality-to-0 test,
distinct from the training-time `< 128` test embodied in `leftPred`. -/
theorem dec_tree_classify_walk (t : DTNode) (img : Image) (hw : wellFormed t = true) :
    ∃ lf, specWalk t img = some lf ∧ lf.left = none ∧ lf.right = none ∧
      dec_tree_classify t img = some lf.classification :=
  classify_walk_aux img t.size t le_rfl hw

/-- C9 witness: classifying the all-zero image against the two-leaf demo
tree follows the left (pixel value 0) branch. -/
theorem dec_tree_classify_walk_witness :
    ∃ lf, specWalk tDemo imgZero = some lf ∧ lf.left = none ∧ lf.right = none ∧
      dec_tree_classify tDemo imgZero = some lf.classification :=
  dec_tree_classify_walk tDemo imgZero (by simp [wellFormed, tDemo])

/-- C10: every node of a built tree is a leaf (`pixel = -1`,
classification in `[0, 9]`, both children null) or a split node
(`classification = -1`, pixel in `[0, 783]` from `find_best_split`, both
children non-null), and at every node the `classification != -1` test
used by `dec_tree_classify` and `free_dec_tree` agrees with the node
having no children. -/
theorem build_subtree_node_invariant (data : Dataset) (fuel : Nat) (indices : List Nat)
    (t : DTNode) (h : build_subtree data fuel indices = some t) :
    wellFormed t = true ∧ classifMatchesChildren t = true :=
  ⟨build_subtree_wf data fuel indices t h, build_subtree_cmc data fuel indices t h⟩

/-- C10 witness: the leaf built on `dPure` satisfies the invariant. -/
theorem build_subtree_node_invariant_witness :
    wellFormed (.mk (-1) 3 none none) = true ∧
      classifMatchesChildren (.mk (-1) 3 none none) = true :=
  build_subtree_node_invariant dPure 2 [0, 1] _ build_dPure

end DecTree
